import Mathlib

/-!
# Verification of cadwyn's version resolution and request dispatch engine

Shallow embedding of the version-routing core: calendar-date versions,
ISO token parsing, nearest-lower version resolution, ordered route-table
dispatch, forward-carried route tables, reverse URL lookup, the non-HTTP
shortcut, lifecycle hooks, and the `get_versioned_router` composition
from `src/cadwyn/header_routing.py`.

Definitions come first; all theorems follow.
-/

set_option autoImplicit false

namespace Cadwyn

/-- A calendar date `YYYY-MM-DD`; a `Version` wraps exactly one of these.
Total order is lexicographic on (year, month, day). -/
structure Date where
  year : Nat
  month : Nat
  day : Nat
deriving DecidableEq, Repr

/-- `a ≤ b` on dates, lexicographic. -/
def Date.leb (a b : Date) : Bool :=
  decide (a.year < b.year ∨ (a.year = b.year ∧
    (a.month < b.month ∨ (a.month = b.month ∧ a.day ≤ b.day))))

/-- `a < b` on dates, lexicographic. -/
def Date.ltb (a b : Date) : Bool :=
  decide (a.year < b.year ∨ (a.year = b.year ∧
    (a.month < b.month ∨ (a.month = b.month ∧ a.day < b.day))))

/-- Numeric value of a decimal digit character, if it is one. -/
def digitVal (c : Char) : Option Nat :=
  if c.isDigit then some (c.toNat - 48) else none

/-- Gregorian leap-year rule. -/
def isLeapYear (y : Nat) : Bool :=
  (y % 4 == 0 && y % 100 != 0) || (y % 400 == 0)

/-- Number of days in month `m` of year `y`. -/
def daysInMonth (y m : Nat) : Nat :=
  if m == 2 then (if isLeapYear y then 29 else 28)
  else if m == 4 || m == 6 || m == 9 || m == 11 then 30
  else 31

/-- Modelled from the spec: parse an ISO `YYYY-MM-DD` version token into
a `Date`, rejecting any other format (wrong field order, invalid
month/day range, extra characters).  The resolver code itself
(`fastapi_header_versioning` / `cadwyn`) is not under `src/`; only its
tests are. -/
def parseISODate (s : String) : Option Date :=
  match s.toList with
  | [y1, y2, y3, y4, c1, m1, m2, c2, d1, d2] =>
    if c1 = '-' ∧ c2 = '-' then
      match digitVal y1, digitVal y2, digitVal y3, digitVal y4,
            digitVal m1, digitVal m2, digitVal d1, digitVal d2 with
      | some a, some b, some c, some e, some f, some g, some h, some i =>
        let y := ((a * 10 + b) * 10 + c) * 10 + e
        let m := f * 10 + g
        let day := h * 10 + i
        if 1 ≤ y ∧ 1 ≤ m ∧ m ≤ 12 ∧ 1 ≤ day ∧ day ≤ daysInMonth y m then
          some ⟨y, m, day⟩
        else none
      | _, _, _, _, _, _, _, _ => none
    else none
  | _ => none

/-- Fold step keeping the greatest date `≤ d` seen so far. -/
def betterLE (d : Date) (acc : Option Date) (v : Date) : Option Date :=
  if Date.leb v d then
    match acc with
    | none => some v
    | some a => if Date.leb a v then some v else some a
  else acc

/-- Greatest element of `bundle` that is `≤ d`, if any. -/
def greatestLE (bundle : List Date) (d : Date) : Option Date :=
  bundle.foldl (betterLE d) none

/-- Outcome of version resolution: an exact or nearest-lower `Version`,
the below-range sentinel, or a parse failure naming the token's field. -/
inductive ResolveResult where
  | success (v : Date)
  | belowRange
  | parseError (fieldName : String)
deriving DecidableEq, Repr

/-- Modelled from the spec: the VersionResolver.  Parses the raw token;
on failure reports `parseError` carrying the field name; on success maps
the date to the greatest bundle `Version ≤ date` or to `belowRange` when
the date predates every bundle version.  A `VersionBundle` is
represented by its sorted ascending list of distinct `Date`s. -/
def resolve (token : String) (fieldName : String) (bundle : List Date) :
    ResolveResult :=
  match parseISODate token with
  | none => .parseError fieldName
  | some d =>
    match greatestLE bundle d with
    | none => .belowRange
    | some v => .success v

/-- One segment of a path-pattern: a literal, or a named parameter. -/
inductive Segment where
  | lit (s : String)
  | par (name : String)
deriving DecidableEq, Repr

/-- One route registration: path-pattern, HTTP method, route name. -/
structure RouteEntry where
  pattern : List Segment
  method : String
  name : String
deriving DecidableEq, Repr

/-- Whether one pattern segment accepts one concrete path segment. -/
def segMatches : Segment → String → Bool
  | .lit l, s => l == s
  | .par _, _ => true

/-- Whether a pattern matches a concrete path (same length, every
segment accepted). -/
def pathMatches (pat : List Segment) (path : List String) : Bool :=
  pat.length == path.length &&
    (List.zip pat path).all (fun p => segMatches p.1 p.2)

/-- Dispatch outcome: a matched entry, method-not-allowed (405), or
not-found (404). -/
inductive DispatchResult where
  | matched (e : RouteEntry)
  | methodNotAllowed
  | notFound
deriving DecidableEq, Repr

/-- Modelled from the spec: the dispatcher's scan over the selected
table in its fixed order.  `sawPath` records whether some earlier entry
matched the path with a different method; method-not-allowed is
reported only after the whole table is exhausted without a full
match. -/
def dispatchAux : List RouteEntry → List String → String → Bool →
    DispatchResult
  | [], _, _, sawPath =>
    if sawPath then .methodNotAllowed else .notFound
  | e :: rest, path, method, sawPath =>
    if pathMatches e.pattern path then
      if e.method == method then .matched e
      else dispatchAux rest path method true
    else dispatchAux rest path method sawPath

/-- Modelled from the spec: `dispatch(version table, path, method)`. -/
def dispatch (table : List RouteEntry) (path : List String)
    (method : String) : DispatchResult :=
  dispatchAux table path method false

/-- ASCII lowercasing of one character (header names are ASCII). -/
def lowerChar (c : Char) : Char :=
  match c with
  | 'A' => 'a' | 'B' => 'b' | 'C' => 'c' | 'D' => 'd' | 'E' => 'e'
  | 'F' => 'f' | 'G' => 'g' | 'H' => 'h' | 'I' => 'i' | 'J' => 'j'
  | 'K' => 'k' | 'L' => 'l' | 'M' => 'm' | 'N' => 'n' | 'O' => 'o'
  | 'P' => 'p' | 'Q' => 'q' | 'R' => 'r' | 'S' => 's' | 'T' => 't'
  | 'U' => 'u' | 'V' => 'v' | 'W' => 'w' | 'X' => 'x' | 'Y' => 'y'
  | 'Z' => 'z' | c => c

/-- ASCII lowercasing of a header field name. -/
def lowerField (s : String) : String :=
  String.mk (s.toList.map lowerChar)

/-- The result a request produces at the boundary layer. -/
inductive HandleResult where
  | ok (v : Date) (e : RouteEntry)
  | notFound
  | methodNotAllowed
  | unprocessable (loc : List String)
deriving DecidableEq, Repr

/-- HTTP status code of a `HandleResult`. -/
def statusOf : HandleResult → Nat
  | .ok _ _ => 200
  | .notFound => 404
  | .methodNotAllowed => 405
  | .unprocessable _ => 422

/-- Modelled from the spec: the RootRouter's per-request pipeline —
resolve the version token, then dispatch against the resolved version's
table; `parseError` becomes a 422 whose first error location is
`["header", <lowercased field name>]`, `belowRange` becomes 404. -/
def rootHandle (token fieldName : String) (bundle : List Date)
    (tables : Date → List RouteEntry) (path : List String)
    (method : String) : HandleResult :=
  match resolve token fieldName bundle with
  | .parseError f => .unprocessable ["header", lowerField f]
  | .belowRange => .notFound
  | .success v =>
    match dispatch (tables v) path method with
    | .matched e => .ok v e
    | .methodNotAllowed => .methodNotAllowed
    | .notFound => .notFound

/-- The route changes introduced at one version date. -/
structure VersionChange where
  date : Date
  added : List RouteEntry
  removed : List RouteEntry
deriving DecidableEq, Repr

/-- Apply one version's changes to the table carried forward so far:
drop the explicitly removed routes, append the added ones. -/
def applyChange (tbl : List RouteEntry) (c : VersionChange) :
    List RouteEntry :=
  (tbl.filter (fun e => decide (e ∉ c.removed))) ++ c.added

/-- Modelled from the spec: each `VersionedRouteTable` is built
externally by applying, older-to-newer, the per-version route changes;
the table valid at version `v` is the result of applying every change
dated `≤ v`, in order, starting from the empty table. -/
def tableFor (changes : List VersionChange) (v : Date) :
    List RouteEntry :=
  (changes.filter (fun c => Date.leb c.date v)).foldl applyChange []

/-- The named parameters a pattern requires, in declaration order. -/
def requiredParams (pat : List Segment) : List String :=
  pat.filterMap (fun s => match s with | .par n => some n | .lit _ => none)

/-- Whether two key lists contain the same set of keys. -/
def sameKeySet (ks rs : List String) : Bool :=
  ks.all (fun k => rs.contains k) && rs.all (fun r => ks.contains r)

/-- Substitute one pattern segment using the supplied parameters. -/
def substSeg (params : List (String × String)) : Segment → String
  | .lit l => l
  | .par n => (((params.find? (fun p => p.1 == n)).map (fun p => p.2)).getD (""))

/-- One candidate's reverse lookup: succeeds only when the route name
matches and the supplied keys are exactly the required keys. -/
def routeUrlFor (e : RouteEntry) (name : String)
    (params : List (String × String)) : Option (List String) :=
  if e.name == name &&
      sameKeySet (params.map (fun p => p.1)) (requiredParams e.pattern) then
    some (e.pattern.map (substSeg params))
  else none

/-- The literal `NoMatchFound` message, over a list of parameter keys. -/
def noMatchMessage (name : String) (keys : List String) : String :=
  "No route exists for name \"" ++ name ++ "\" and params \"" ++
    String.intercalate (", ") keys ++ "\"."

/-- Modelled from the spec and anchored by the repository's tests
(`test__url_path_for__not_enough_params__error`,
`test__url_path_for__not_enough_params__error2`): `url_path_for` over a
whole table — the first accepting candidate wins; otherwise the failure
message carries the supplied parameter keys in supplied order. -/
def urlPathFor (table : List RouteEntry) (name : String)
    (params : List (String × String)) : Except String (List String) :=
  match table.findSome? (fun e => routeUrlFor e name params) with
  | some p => .ok p
  | none => .error (noMatchMessage name (params.map (fun p => p.1)))

/-- The parameter list the spec's words predict for the failure message:
required-but-unsupplied names of a candidate, in declaration order.
(Spec-side definition, for comparison with `urlPathFor`.) -/
def missingParams (e : RouteEntry) (params : List (String × String)) :
    List String :=
  (requiredParams e.pattern).filter
    (fun r => !((params.map (fun p => p.1)).contains r))

/-- The protocol-level view of one inbound frame. -/
structure Scope where
  stype : String
  path : List String
  method : String
  headers : List (String × String)
deriving DecidableEq, Repr

/-- Route-matching verdict of the entry point (starlette's `Match`). -/
inductive MatchKind where
  | nomatch
  | full
deriving DecidableEq, Repr

/-- First header value for a (lowercased) field name, if present. -/
def headerValue (headers : List (String × String)) (fieldName : String) :
    Option String :=
  ((headers.find? (fun p => p.1 == lowerField fieldName)).map (fun p => p.2))

/-- Modelled from the spec: the root entry point's `matches`.  Non-HTTP
frames are a non-match with empty captured state; HTTP frames go through
version resolution and dispatch. -/
def appMatches (scope : Scope) (fieldName : String) (bundle : List Date)
    (tables : Date → List RouteEntry) :
    MatchKind × List (String × String) :=
  if scope.stype == "http" then
    match headerValue scope.headers fieldName with
    | none => (.nomatch, [])
    | some token =>
      match resolve token fieldName bundle with
      | .success v =>
        match dispatch (tables v) scope.path scope.method with
        | .matched e => (.full, [("route", e.name)])
        | _ => (.nomatch, [])
      | _ => (.nomatch, [])
  else (.nomatch, [])

/-- One observable event of an application run. -/
inductive LifeEvent where
  | startupHook (i : Nat)
  | requestEv (r : Nat)
  | shutdownHook (i : Nat)
deriving DecidableEq, Repr

/-- Is this event a startup-hook invocation? -/
def isStartupHook : LifeEvent → Bool
  | .startupHook _ => true
  | _ => false

/-- Is this event a shutdown-hook invocation? -/
def isShutdownHook : LifeEvent → Bool
  | .shutdownHook _ => true
  | _ => false

/-- Modelled from the spec: the event trace of one application run with
`nStart` registered startup hooks, `nShut` registered shutdown hooks and
the given request traffic in between.  Hooks are identified by their
registration index, requests by an arbitrary label. -/
def runLifespan (nStart nShut : Nat) (reqs : List Nat) : List LifeEvent :=
  ((List.range nStart).map LifeEvent.startupHook) ++
    (reqs.map LifeEvent.requestEv) ++
    ((List.range nShut).map LifeEvent.shutdownHook)

/-- Zero-padded decimal rendering. -/
def padNum (width n : Nat) : String :=
  let s := toString n
  (String.mk (List.replicate (width - s.length) ('0'))) ++ s

/-- `str(version)`: the ISO `YYYY-MM-DD` rendering of a version date. -/
def Date.render (d : Date) : String :=
  padNum 4 d.year ++ "-" ++ padNum 2 d.month ++ "-" ++ padNum 2 d.day

/-- The root `HeaderVersionedAPIRouter`: the ordered list of
`(version key, sub-router)` inclusions it has received. -/
structure RootRouter (R : Type) where
  inclusions : List (String × R)

/-- `include_router(router, version=key)`: append one inclusion. -/
def includeRouter {R : Type} (root : RootRouter R) (router : R)
    (version : String) : RootRouter R :=
  ⟨root.inclusions ++ [(version, router)]⟩

/-- Embedding of `get_versioned_router` from
`src/cadwyn/header_routing.py`: run the external generator, then include
every generated `(version, router)` pair into a fresh root router under
`str(version)`. -/
def get_versioned_router {A V M R : Type}
    (generate_all_router_versions : List A → V → M → List (Date × R))
    (routers : List A) (versions : V) (latest_schemas_module : M) :
    RootRouter R :=
  let router_versions :=
    generate_all_router_versions routers versions latest_schemas_module
  router_versions.foldl
    (fun root vr => includeRouter root vr.2 (Date.render vr.1)) ⟨[]⟩

/-- The `/` route registered at the oldest version of the test app. -/
def eRootDemo : RouteEntry := ⟨[], "GET", "api:root"⟩

/-- The `/users` route registered at the oldest version. -/
def eUsersV1 : RouteEntry := ⟨[.lit "users"], "GET", "api:users"⟩

/-- The `/users/{username}/{page}` route of the middle version. -/
def eUsersV2 : RouteEntry :=
  ⟨[.lit "users", .par "username", .par "page"], "GET", "api:users"⟩

/-- The `/doggies/{dogname}` route registered at the oldest version. -/
def eDoggies : RouteEntry :=
  ⟨[.lit "doggies", .par "dogname"], "GET", "api:doggies"⟩

/-- Change set of the oldest bundle version, `2022-01-10`. -/
def demoC1 : VersionChange :=
  ⟨⟨2022, 1, 10⟩, [eRootDemo, eUsersV1, eDoggies], []⟩

/-- Change set of the middle bundle version, `2022-02-11`. -/
def demoC2 : VersionChange := ⟨⟨2022, 2, 11⟩, [eUsersV2], []⟩

/-- Change set of the newest bundle version, `2022-03-12`. -/
def demoC3 : VersionChange := ⟨⟨2022, 3, 12⟩, [], []⟩

/-- The three-version change list of the test application. -/
def demoChanges : List VersionChange := [demoC1, demoC2, demoC3]

/-- The test application's version bundle. -/
def demoBundle : List Date := [⟨2022, 1, 10⟩, ⟨2022, 2, 11⟩, ⟨2022, 3, 12⟩]

/-! ## Date order lemmas -/

theorem Date.leb_iff (a b : Date) :
    Date.leb a b = true ↔ (a.year < b.year ∨ (a.year = b.year ∧
      (a.month < b.month ∨ (a.month = b.month ∧ a.day ≤ b.day)))) := by
  simp [Date.leb]

theorem Date.ltb_iff (a b : Date) :
    Date.ltb a b = true ↔ (a.year < b.year ∨ (a.year = b.year ∧
      (a.month < b.month ∨ (a.month = b.month ∧ a.day < b.day)))) := by
  simp [Date.ltb]

theorem Date.leb_refl (a : Date) : Date.leb a a = true := by
  rw [Date.leb_iff]; omega

theorem Date.leb_trans {a b c : Date} (h1 : Date.leb a b = true)
    (h2 : Date.leb b c = true) : Date.leb a c = true := by
  rw [Date.leb_iff] at h1 h2 ⊢; omega

theorem Date.leb_antisymm {a b : Date} (h1 : Date.leb a b = true)
    (h2 : Date.leb b a = true) : a = b := by
  rw [Date.leb_iff] at h1 h2
  cases a; cases b
  simp only [Date.mk.injEq]
  simp only at h1 h2
  omega

theorem Date.leb_total (a b : Date) :
    Date.leb a b = true ∨ Date.leb b a = true := by
  rw [Date.leb_iff, Date.leb_iff]; omega

theorem Date.not_leb_iff_ltb (a b : Date) :
    Date.leb a b = false ↔ Date.ltb b a = true := by
  rw [Date.ltb_iff]
  constructor
  · intro h
    have h1 : ¬ (Date.leb a b = true) := by simp [h]
    rw [Date.leb_iff] at h1
    omega
  · intro h
    have h1 : ¬ (Date.leb a b = true) := by
      rw [Date.leb_iff]; omega
    simpa using h1

theorem Date.ltb_leb {a b : Date} (h : Date.ltb a b = true) :
    Date.leb a b = true := by
  rw [Date.ltb_iff] at h; rw [Date.leb_iff]; omega

theorem Date.leb_of_not_leb {a b : Date} (h : Date.leb a b = false) :
    Date.leb b a = true := by
  rcases Date.leb_total a b with h1 | h1
  · rw [h1] at h; cases h
  · exact h1

theorem Date.ltb_leb_trans {a b c : Date} (h1 : Date.ltb a b = true)
    (h2 : Date.leb b c = true) : Date.ltb a c = true := by
  rw [Date.ltb_iff] at h1 ⊢; rw [Date.leb_iff] at h2; omega

/-! ## Resolver fold lemmas -/

theorem betterLE_skip {d v : Date} (acc : Option Date)
    (h : Date.leb v d = false) : betterLE d acc v = acc := by
  simp [betterLE, h]

theorem betterLE_none {d v : Date} (h : Date.leb v d = true) :
    betterLE d none v = some v := by
  simp [betterLE, h]

theorem betterLE_some_up {d a v : Date} (h : Date.leb v d = true)
    (h2 : Date.leb a v = true) : betterLE d (some a) v = some v := by
  simp [betterLE, h, h2]

theorem betterLE_some_keep {d a v : Date} (h : Date.leb v d = true)
    (h2 : Date.leb a v = false) : betterLE d (some a) v = some a := by
  simp [betterLE, h, h2]

theorem foldl_betterLE_mem (d : Date) :
    ∀ (l : List Date) (acc : Option Date) (v : Date),
      l.foldl (betterLE d) acc = some v →
      acc = some v ∨ (v ∈ l ∧ Date.leb v d = true) := by
  intro l
  induction l with
  | nil => intro acc v h; exact Or.inl h
  | cons x l ih =>
    intro acc v h
    simp only [List.foldl_cons] at h
    rcases ih (betterLE d acc x) v h with h1 | h1
    · by_cases hx : Date.leb x d = true
      · cases acc with
        | none =>
          rw [betterLE_none hx] at h1
          cases h1
          exact Or.inr ⟨List.mem_cons_self x l, hx⟩
        | some a =>
          by_cases ha : Date.leb a x = true
          · rw [betterLE_some_up hx ha] at h1
            cases h1
            exact Or.inr ⟨List.mem_cons_self x l, hx⟩
          · rw [betterLE_some_keep hx (by simpa using ha)] at h1
            exact Or.inl h1
      · rw [betterLE_skip acc (by simpa using hx)] at h1
        exact Or.inl h1
    · exact Or.inr ⟨List.mem_cons_of_mem _ h1.1, h1.2⟩

theorem foldl_betterLE_grows (d : Date) :
    ∀ (l : List Date) (a : Date),
      ∃ v, l.foldl (betterLE d) (some a) = some v ∧ Date.leb a v = true := by
  intro l
  induction l with
  | nil => intro a; exact ⟨a, rfl, Date.leb_refl a⟩
  | cons x l ih =>
    intro a
    simp only [List.foldl_cons]
    by_cases hx : Date.leb x d = true
    · by_cases ha : Date.leb a x = true
      · rw [betterLE_some_up hx ha]
        rcases ih x with ⟨v, hv, hle⟩
        exact ⟨v, hv, Date.leb_trans ha hle⟩
      · rw [betterLE_some_keep hx (by simpa using ha)]
        exact ih a
    · rw [betterLE_skip _ (by simpa using hx)]
      exact ih a

theorem foldl_betterLE_dominates (d : Date) :
    ∀ (l : List Date) (acc : Option Date) (w : Date),
      w ∈ l → Date.leb w d = true →
      ∃ v, l.foldl (betterLE d) acc = some v ∧ Date.leb w v = true := by
  intro l
  induction l with
  | nil => intro acc w hw; cases hw
  | cons x l ih =>
    intro acc w hw hwd
    simp only [List.foldl_cons]
    rcases List.mem_cons.mp hw with hw | hw
    · subst hw
      have hstep : ∃ c, betterLE d acc w = some c ∧ Date.leb w c = true := by
        cases acc with
        | none => exact ⟨w, betterLE_none hwd, Date.leb_refl w⟩
        | some a =>
          by_cases ha : Date.leb a w = true
          · exact ⟨w, betterLE_some_up hwd ha, Date.leb_refl w⟩
          · refine ⟨a, betterLE_some_keep hwd (by simpa using ha), ?_⟩
            exact Date.leb_of_not_leb (by simpa using ha)
      rcases hstep with ⟨c, hc, hwc⟩
      rw [hc]
      rcases foldl_betterLE_grows d l c with ⟨v, hv, hcv⟩
      exact ⟨v, hv, Date.leb_trans hwc hcv⟩
    · exact ih (betterLE d acc x) w hw hwd

theorem greatestLE_some_spec {bundle : List Date} {d v : Date}
    (h : greatestLE bundle d = some v) :
    v ∈ bundle ∧ Date.leb v d = true := by
  rcases foldl_betterLE_mem d bundle none v h with h1 | h1
  · cases h1
  · exact h1

theorem greatestLE_max {bundle : List Date} {d v w : Date}
    (h : greatestLE bundle d = some v) (hw : w ∈ bundle)
    (hwd : Date.leb w d = true) : Date.leb w v = true := by
  rcases foldl_betterLE_dominates d bundle none w hw hwd with ⟨v2, hv2, hle⟩
  unfold greatestLE at h
  rw [h] at hv2
  cases hv2
  exact hle

theorem greatestLE_none {bundle : List Date} {d : Date}
    (h : ∀ w ∈ bundle, Date.leb w d = false) :
    greatestLE bundle d = none := by
  unfold greatestLE
  induction bundle with
  | nil => rfl
  | cons x l ih =>
    simp only [List.foldl_cons]
    have hx := h x (List.mem_cons_self x l)
    rw [betterLE_skip _ hx]
    exact ih (fun w hw => h w (List.mem_cons_of_mem _ hw))

theorem greatestLE_of_mem {bundle : List Date} {d : Date}
    (hd : d ∈ bundle) : greatestLE bundle d = some d := by
  cases hg : greatestLE bundle d with
  | none =>
    exfalso
    rcases foldl_betterLE_dominates d bundle none d hd (Date.leb_refl d)
      with ⟨v, hv, _⟩
    have h2 : greatestLE bundle d = some v := hv
    rw [hg] at h2
    cases h2
  | some v =>
    have hspec := greatestLE_some_spec hg
    have hmax := greatestLE_max hg hd (Date.leb_refl d)
    rw [Date.leb_antisymm hspec.2 hmax]

/-! ## Dispatcher scan lemmas -/

theorem dispatchAux_mna (path : List String) (method : String) :
    ∀ (table : List RouteEntry) (sawPath : Bool),
      (∀ e ∈ table, pathMatches e.pattern path = true →
        e.method ≠ method) →
      ((∃ e ∈ table, pathMatches e.pattern path = true) ∨
        sawPath = true) →
      dispatchAux table path method sawPath = .methodNotAllowed := by
  intro table
  induction table with
  | nil =>
    intro sawPath _ hsome
    rcases hsome with ⟨e, he, _⟩ | hsaw
    · cases he
    · simp only [dispatchAux, hsaw, if_true]
  | cons e rest ih =>
    intro sawPath hall hsome
    by_cases hp : pathMatches e.pattern path = true
    · have hm : (e.method == method) = false := by
        have := hall e (List.mem_cons_self e rest) hp
        simpa using this
      simp only [dispatchAux, hp, if_true, hm]
      simp only [Bool.false_eq_true, if_false]
      exact ih true (fun e2 he2 => hall e2 (List.mem_cons_of_mem _ he2))
        (Or.inr rfl)
    · simp only [dispatchAux, hp]
      simp only [Bool.false_eq_true, if_false]
      refine ih sawPath (fun e2 he2 => hall e2 (List.mem_cons_of_mem _ he2))
        ?_
      rcases hsome with ⟨e2, he2, hpe2⟩ | hsaw
      · rcases List.mem_cons.mp he2 with rfl | he2
        · exact absurd hpe2 hp
        · exact Or.inl ⟨e2, he2, hpe2⟩
      · exact Or.inr hsaw

theorem dispatchAux_full (path : List String) (method : String) :
    ∀ (table : List RouteEntry) (sawPath : Bool),
      (∃ e ∈ table, pathMatches e.pattern path = true ∧
        e.method = method) →
      ∃ e2, dispatchAux table path method sawPath = .matched e2 ∧
        pathMatches e2.pattern path = true ∧ e2.method = method := by
  intro table
  induction table with
  | nil => intro sawPath h; rcases h with ⟨e, he, _⟩; cases he
  | cons e rest ih =>
    intro sawPath h
    by_cases hp : pathMatches e.pattern path = true
    · by_cases hm : (e.method == method) = true
      · refine ⟨e, ?_, hp, by simpa using hm⟩
        simp only [dispatchAux, hp, if_true, hm]
      · simp only [dispatchAux, hp, if_true, hm]
        simp only [Bool.false_eq_true, if_false]
        refine ih true ?_
        rcases h with ⟨e2, he2, hpe2, hme2⟩
        rcases List.mem_cons.mp he2 with rfl | he2
        · exact absurd (by simp [hme2]) hm
        · exact ⟨e2, he2, hpe2, hme2⟩
    · simp only [dispatchAux, hp]
      simp only [Bool.false_eq_true, if_false]
      refine ih sawPath ?_
      rcases h with ⟨e2, he2, hpe2, hme2⟩
      rcases List.mem_cons.mp he2 with rfl | he2
      · exact absurd hpe2 hp
      · exact ⟨e2, he2, hpe2, hme2⟩

theorem dispatchAux_mna_inv (path : List String) (method : String) :
    ∀ (table : List RouteEntry) (sawPath : Bool),
      dispatchAux table path method sawPath = .methodNotAllowed →
      ((∃ e ∈ table, pathMatches e.pattern path = true) ∨
        sawPath = true) ∧
      (∀ e ∈ table, pathMatches e.pattern path = true →
        e.method ≠ method) := by
  intro table
  induction table with
  | nil =>
    intro sawPath h
    constructor
    · by_cases hs : sawPath = true
      · exact Or.inr hs
      · simp only [dispatchAux] at h
        rw [if_neg hs] at h
        cases h
    · intro e he; cases he
  | cons e rest ih =>
    intro sawPath h
    by_cases hp : pathMatches e.pattern path = true
    · by_cases hm : (e.method == method) = true
      · simp only [dispatchAux, hp, if_true, hm] at h
        cases h
      · simp only [dispatchAux, hp, if_true, hm] at h
        simp only [Bool.false_eq_true, if_false] at h
        have h2 := ih true h
        constructor
        · exact Or.inl ⟨e, List.mem_cons_self e rest, hp⟩
        · intro e2 he2 hpe2
          rcases List.mem_cons.mp he2 with rfl | he2
          · intro hc; exact absurd (by simp [hc]) hm
          · exact h2.2 e2 he2 hpe2
    · simp only [dispatchAux, hp] at h
      simp only [Bool.false_eq_true, if_false] at h
      have h2 := ih sawPath h
      constructor
      · rcases h2.1 with ⟨e2, he2, hpe2⟩ | hsaw
        · exact Or.inl ⟨e2, List.mem_cons_of_mem _ he2, hpe2⟩
        · exact Or.inr hsaw
      · intro e2 he2 hpe2
        rcases List.mem_cons.mp he2 with rfl | he2
        · exact absurd hpe2 hp
        · exact h2.2 e2 he2 hpe2

/-! ## Forward-carry table lemmas -/

/-- A route survives a run of changes none of which removes it. -/
theorem mem_foldl_applyChange {e : RouteEntry} :
    ∀ (cs : List VersionChange) (tbl : List RouteEntry),
      e ∈ tbl → (∀ c ∈ cs, e ∉ c.removed) →
      e ∈ cs.foldl applyChange tbl := by
  intro cs
  induction cs with
  | nil => intro tbl he _; exact he
  | cons c cs ih =>
    intro tbl he hnr
    simp only [List.foldl_cons]
    refine ih (applyChange tbl c) ?_
      (fun c2 hc2 => hnr c2 (List.mem_cons_of_mem _ hc2))
    unfold applyChange
    refine List.mem_append_left _ ?_
    refine List.mem_filter.mpr ⟨he, ?_⟩
    exact decide_eq_true (hnr c (List.mem_cons_self c cs))

/-- Auxiliary induction for forward-carry, generalized over the carried
table. -/
theorem foldl_filter_carry {v1 v2 : Date} (h12 : Date.leb v1 v2 = true)
    {e : RouteEntry} :
    ∀ (changes : List VersionChange) (tbl : List RouteEntry),
      List.Pairwise (fun a b => Date.leb a.date b.date = true) changes →
      e ∈ (changes.filter (fun c => Date.leb c.date v1)).foldl
        applyChange tbl →
      (∀ c ∈ changes, Date.ltb v1 c.date = true →
        Date.leb c.date v2 = true → e ∉ c.removed) →
      e ∈ (changes.filter (fun c => Date.leb c.date v2)).foldl
        applyChange tbl := by
  intro changes
  induction changes with
  | nil => intro tbl _ he _; exact he
  | cons c cs ih =>
    intro tbl hs he hnr
    rcases List.pairwise_cons.mp hs with ⟨hhead, hs2⟩
    by_cases hc1 : Date.leb c.date v1 = true
    · have hc2 : Date.leb c.date v2 = true := Date.leb_trans hc1 h12
      rw [List.filter_cons_of_pos (by simpa using hc1)] at he
      rw [List.filter_cons_of_pos (by simpa using hc2)]
      simp only [List.foldl_cons] at he ⊢
      exact ih (applyChange tbl c) hs2 he
        (fun c2 hc2m => hnr c2 (List.mem_cons_of_mem _ hc2m))
    · have hv1c : Date.ltb v1 c.date = true :=
        (Date.not_leb_iff_ltb c.date v1).mp (by simpa using hc1)
      have hrest : ∀ c2 ∈ cs, Date.leb c2.date v1 = false := by
        intro c2 hc2m
        rcases Bool.eq_false_or_eq_true (Date.leb c2.date v1) with h | h
        · exact absurd (Date.leb_trans (hhead c2 hc2m) h) hc1
        · exact h
      have hfil1 : cs.filter (fun c2 => Date.leb c2.date v1) = [] := by
        rw [List.filter_eq_nil_iff]
        intro c2 hc2m
        simp [hrest c2 hc2m]
      rw [List.filter_cons_of_neg (by simpa using hc1), hfil1] at he
      simp only [List.foldl_nil] at he
      refine mem_foldl_applyChange _ tbl he ?_
      intro c2 hc2m
      have hc2mem := List.mem_filter.mp hc2m
      have hc2le : Date.leb c2.date v2 = true := by
        simpa using hc2mem.2
      have hc2gt : Date.ltb v1 c2.date = true := by
        rcases List.mem_cons.mp hc2mem.1 with rfl | hmem
        · exact hv1c
        · exact Date.ltb_leb_trans hv1c (hhead c2 hmem)
      exact hnr c2 hc2mem.1 hc2gt hc2le

/-- Forward-carry invariant of the externally built tables. -/
theorem tableFor_carry {changes : List VersionChange}
    (hs : List.Pairwise (fun a b => Date.leb a.date b.date = true) changes)
    {v1 v2 : Date} (h12 : Date.leb v1 v2 = true) {e : RouteEntry}
    (he : e ∈ tableFor changes v1)
    (hnr : ∀ c ∈ changes, Date.ltb v1 c.date = true →
      Date.leb c.date v2 = true → e ∉ c.removed) :
    e ∈ tableFor changes v2 :=
  foldl_filter_carry h12 changes [] hs he hnr

/-- A route added by the first (oldest) change and never removed is in
every table dated at or after that change. -/
theorem mem_tableFor_of_added {e : RouteEntry} {c0 : VersionChange}
    {cs : List VersionChange} (hadd : e ∈ c0.added)
    (hnr : ∀ c ∈ c0 :: cs, e ∉ c.removed)
    {v : Date} (hv : Date.leb c0.date v = true) :
    e ∈ tableFor (c0 :: cs) v := by
  unfold tableFor
  rw [List.filter_cons_of_pos (by simpa using hv)]
  simp only [List.foldl_cons]
  refine mem_foldl_applyChange _ _ ?_ ?_
  · unfold applyChange
    exact List.mem_append_right _ hadd
  · intro c hc
    exact hnr c (List.mem_cons_of_mem _ ((List.mem_filter.mp hc).1))

/-! ## Reverse lookup, lifespan and composition lemmas -/

theorem findSomeNoneIff {α β : Type} (f : α → Option β) :
    ∀ (l : List α), l.findSome? f = none ↔ ∀ a ∈ l, f a = none := by
  intro l
  induction l with
  | nil => simp [List.findSome?]
  | cons a l ih =>
    constructor
    · intro h b hb
      have hfa : f a = none ∧ l.findSome? f = none := by
        cases hf : f a with
        | none => rw [List.findSome?_cons, hf] at h; exact ⟨rfl, h⟩
        | some v => rw [List.findSome?_cons, hf] at h; cases h
      rcases List.mem_cons.mp hb with rfl | hb2
      · exact hfa.1
      · exact (ih.mp hfa.2) b hb2
    · intro h
      rw [List.findSome?_cons, h a (List.mem_cons_self a l)]
      exact ih.mpr (fun b hb => h b (List.mem_cons_of_mem _ hb))

theorem left_all_in_pre {α : Type} (P : α → Bool) :
    ∀ (A B pre post : List α) (x : α),
      (∀ a ∈ A, P a = true) → P x = false →
      A ++ B = pre ++ x :: post → ∀ a ∈ A, a ∈ pre := by
  intro A
  induction A with
  | nil => intro B pre post x _ _ _ a ha; cases ha
  | cons a A ih =>
    intro B pre post x hA hx heq b hb
    cases pre with
    | nil =>
      simp only [List.cons_append, List.nil_append] at heq
      have h1 : a = x := (List.cons.injEq _ _ _ _ ▸ heq).1
      have h2 := hA a (List.mem_cons_self a A)
      rw [h1, hx] at h2
      cases h2
    | cons p pre2 =>
      simp only [List.cons_append] at heq
      have h1 : a = p := (List.cons.injEq _ _ _ _ ▸ heq).1
      have h2 : A ++ B = pre2 ++ x :: post :=
        (List.cons.injEq _ _ _ _ ▸ heq).2
      rcases List.mem_cons.mp hb with rfl | hb2
      · rw [h1]; exact List.mem_cons_self p pre2
      · exact List.mem_cons_of_mem _
          (ih B pre2 post x
            (fun c hc => hA c (List.mem_cons_of_mem _ hc)) hx h2 b hb2)

theorem right_all_in_post {α : Type} (P : α → Bool) :
    ∀ (A B pre post : List α) (x : α),
      (∀ b ∈ B, P b = true) → P x = false →
      A ++ B = pre ++ x :: post → ∀ b ∈ B, b ∈ post := by
  intro A
  induction A with
  | nil =>
    intro B pre post x hB hx heq b hb
    rw [List.nil_append] at heq
    have hxB : x ∈ B := by
      rw [heq]
      exact List.mem_append_right _ (List.mem_cons_self x post)
    have h2 := hB x hxB
    rw [hx] at h2
    cases h2
  | cons a A ih =>
    intro B pre post x hB hx heq b hb
    cases pre with
    | nil =>
      simp only [List.cons_append, List.nil_append] at heq
      have h2 : A ++ B = post := (List.cons.injEq _ _ _ _ ▸ heq).2
      rw [← h2]
      exact List.mem_append_right _ hb
    | cons p pre2 =>
      simp only [List.cons_append] at heq
      have h2 : A ++ B = pre2 ++ x :: post :=
        (List.cons.injEq _ _ _ _ ▸ heq).2
      exact ih B pre2 post x hB hx h2 b hb

theorem foldl_includeRouter {R : Type} :
    ∀ (l : List (Date × R)) (init : RootRouter R),
      (l.foldl (fun root vr => includeRouter root vr.2 (Date.render vr.1))
        init).inclusions =
      init.inclusions ++ l.map (fun vr => (Date.render vr.1, vr.2)) := by
  intro l
  induction l with
  | nil => intro init; simp
  | cons vr l ih =>
    intro init
    simp only [List.foldl_cons, List.map_cons]
    rw [ih]
    simp [includeRouter]

/-! ## Claim theorems -/

/-- C1: a version token parsing to a date `d` at or above the bundle's
lowest version and equal to no bundle version resolves successfully to
the greatest bundle version `≤ d` (nearest-lower fallback), and the
request is then served from exactly that version's route table. -/
theorem resolve_nearest_lower (token fieldName : String)
    (low : Date) (rest : List Date) (d : Date)
    (hp : parseISODate token = some d)
    (hge : Date.leb low d = true)
    (hni : d ∉ low :: rest) :
    ∃ v, resolve token fieldName (low :: rest) = .success v ∧
      v ∈ low :: rest ∧ v ≠ d ∧ Date.leb v d = true ∧
      (∀ w ∈ low :: rest, Date.leb w d = true → Date.leb w v = true) ∧
      (∀ (tables : Date → List RouteEntry) (path : List String)
        (method : String),
        rootHandle token fieldName (low :: rest) tables path method =
          match dispatch (tables v) path method with
          | .matched e => .ok v e
          | .methodNotAllowed => .methodNotAllowed
          | .notFound => .notFound) := by
  have hlowmem : low ∈ low :: rest := List.mem_cons_self low rest
  cases hg : greatestLE (low :: rest) d with
  | none =>
    exfalso
    rcases foldl_betterLE_dominates d (low :: rest) none low hlowmem hge
      with ⟨v, hv, _⟩
    have h2 : greatestLE (low :: rest) d = some v := hv
    rw [hg] at h2
    cases h2
  | some v =>
    have hspec := greatestLE_some_spec hg
    refine ⟨v, ?_, hspec.1, ?_, hspec.2, ?_, ?_⟩
    · simp only [resolve, hp]
      rw [hg]
    · intro hvd
      exact hni (hvd ▸ hspec.1)
    · intro w hw hwd
      exact greatestLE_max hg hw hwd
    · intro tables path method
      simp only [rootHandle, resolve, hp]
      rw [hg]

/-- C1 witness: the token `2022-04-19` over the test bundle resolves to
the greatest version at or before it. -/
theorem resolve_nearest_lower_witness :
    ∃ v, resolve "2022-04-19" "X-API-VERSION" demoBundle = .success v ∧
      v ∈ demoBundle ∧ v ≠ ⟨2022, 4, 19⟩ ∧
      Date.leb v ⟨2022, 4, 19⟩ = true := by
  rcases resolve_nearest_lower "2022-04-19" "X-API-VERSION" ⟨2022, 1, 10⟩
      [⟨2022, 2, 11⟩, ⟨2022, 3, 12⟩] ⟨2022, 4, 19⟩
      (by decide) (by decide) (by decide)
    with ⟨v, h1, h2, h3, h4, _⟩
  exact ⟨v, h1, h2, h3, h4⟩

/-- C9: a version token equal (as a date) to some bundle version
resolves to exactly that version, and the request is served from that
version's own route table. -/
theorem resolve_exact (token fieldName : String) (bundle : List Date)
    (d : Date) (hp : parseISODate token = some d) (hd : d ∈ bundle) :
    resolve token fieldName bundle = .success d ∧
    (∀ (tables : Date → List RouteEntry) (path : List String)
      (method : String),
      rootHandle token fieldName bundle tables path method =
        match dispatch (tables d) path method with
        | .matched e => .ok d e
        | .methodNotAllowed => .methodNotAllowed
        | .notFound => .notFound) := by
  have hg := greatestLE_of_mem hd
  constructor
  · simp only [resolve, hp]
    rw [hg]
  · intro tables path method
    simp only [rootHandle, resolve, hp]
    rw [hg]

/-- C9 witness: the token `2022-02-11` resolves to the bundle version
`2022-02-11` itself. -/
theorem resolve_exact_witness :
    resolve "2022-02-11" "X-API-VERSION" demoBundle =
      .success ⟨2022, 2, 11⟩ :=
  (resolve_exact "2022-02-11" "X-API-VERSION" demoBundle ⟨2022, 2, 11⟩
    (by decide) (by decide)).1

/-- C3: a version token parsing to a date strictly older than the
bundle's lowest version yields the below-range outcome, distinct from
success, and dispatch of any request under it reports not-found — never
a match and never method-not-allowed. -/
theorem resolve_below_range (token fieldName : String)
    (low : Date) (rest : List Date) (d : Date)
    (hsorted : List.Pairwise (fun a b => Date.leb a b = true) (low :: rest))
    (hp : parseISODate token = some d)
    (hlow : Date.ltb d low = true) :
    resolve token fieldName (low :: rest) = .belowRange ∧
    (∀ v, resolve token fieldName (low :: rest) ≠ .success v) ∧
    (∀ (tables : Date → List RouteEntry) (path : List String)
      (method : String),
      rootHandle token fieldName (low :: rest) tables path method =
        .notFound ∧
      rootHandle token fieldName (low :: rest) tables path method ≠
        .methodNotAllowed ∧
      (∀ v e, rootHandle token fieldName (low :: rest) tables path method ≠
        .ok v e)) := by
  have hall : ∀ w ∈ low :: rest, Date.leb w d = false := by
    intro w hw
    rcases List.mem_cons.mp hw with rfl | hw2
    · exact (Date.not_leb_iff_ltb w d).mpr hlow
    · rcases Bool.eq_false_or_eq_true (Date.leb w d) with h | h
      · have h2 :=
          Date.leb_trans ((List.pairwise_cons.mp hsorted).1 w hw2) h
        have h3 := (Date.not_leb_iff_ltb low d).mpr hlow
        rw [h3] at h2
        exact absurd h2 (by decide)
      · exact h
  have hg := greatestLE_none hall
  have hres : resolve token fieldName (low :: rest) = .belowRange := by
    simp only [resolve, hp]
    rw [hg]
  refine ⟨hres, ?_, ?_⟩
  · intro v hv
    rw [hres] at hv
    cases hv
  · intro tables path method
    have hroot : rootHandle token fieldName (low :: rest) tables path
        method = .notFound := by
      simp only [rootHandle, resolve, hp]
      rw [hg]
    refine ⟨hroot, ?_, ?_⟩
    · rw [hroot]
      intro hc
      cases hc
    · intro v e
      rw [hroot]
      intro hc
      cases hc

/-- C3 witness: the token `1993-11-15`, older than the lowest test
bundle version, makes every request 404. -/
theorem resolve_below_range_witness :
    resolve "1993-11-15" "X-API-VERSION" demoBundle = .belowRange ∧
    rootHandle "1993-11-15" "X-API-VERSION" demoBundle
      (tableFor demoChanges) ["doggies", "tom"] "GET" = .notFound := by
  have h := resolve_below_range "1993-11-15" "X-API-VERSION" ⟨2022, 1, 10⟩
    [⟨2022, 2, 11⟩, ⟨2022, 3, 12⟩] ⟨1993, 11, 15⟩
    (by decide) (by decide) (by decide)
  exact ⟨h.1, (h.2.2 (tableFor demoChanges) (["doggies", "tom"]) "GET").1⟩

/-- C5: a present but malformed version token (not a valid ISO calendar
date) fails with a parse error mapped to status 422 whose first error
location is `["header", <lowercased field name>]`. -/
theorem resolve_parse_error (token fieldName : String) (bundle : List Date)
    (hp : parseISODate token = none) :
    resolve token fieldName bundle = .parseError fieldName ∧
    (∀ (tables : Date → List RouteEntry) (path : List String)
      (method : String),
      rootHandle token fieldName bundle tables path method =
        .unprocessable ["header", lowerField fieldName] ∧
      statusOf (rootHandle token fieldName bundle tables path method) =
        422) := by
  constructor
  · simp only [resolve, hp]
  · intro tables path method
    have hroot : rootHandle token fieldName bundle tables path method =
        .unprocessable ["header", lowerField fieldName] := by
      simp only [rootHandle, resolve, hp]
    exact ⟨hroot, by rw [hroot]; rfl⟩

/-- C5 witness: the token `2025-40-01` (month 40) against the
`X-API-VERSION` field produces a 422 whose first error location is
`["header", "x-api-version"]`. -/
theorem resolve_parse_error_witness :
    rootHandle "2025-40-01" "X-API-VERSION" demoBundle
      (tableFor demoChanges) ["users"] "GET" =
      .unprocessable ["header", "x-api-version"] ∧
    statusOf (rootHandle "2025-40-01" "X-API-VERSION" demoBundle
      (tableFor demoChanges) ["users"] "GET") = 422 := by
  have h := (resolve_parse_error "2025-40-01" "X-API-VERSION" demoBundle
    (by decide)).2 (tableFor demoChanges) (["users"]) "GET"
  have hlower : lowerField "X-API-VERSION" = "x-api-version" := by decide
  rw [hlower] at h
  exact h

/-- C4: dispatch reports method-not-allowed exactly when some table entry
matches the path but no entry anywhere in the table matches both path
and method; and whenever a full match exists anywhere in the table, the
scan gets past wrong-method path-candidates and returns a match. -/
theorem dispatch_method_not_allowed (table : List RouteEntry)
    (path : List String) (method : String) :
    (dispatch table path method = .methodNotAllowed ↔
      ((∃ e ∈ table, pathMatches e.pattern path = true) ∧
        (∀ e ∈ table, pathMatches e.pattern path = true →
          e.method ≠ method)))
    ∧ ((∃ e ∈ table, pathMatches e.pattern path = true ∧
          e.method = method) →
        ∃ e2, dispatch table path method = .matched e2 ∧
          pathMatches e2.pattern path = true ∧ e2.method = method) := by
  constructor
  · constructor
    · intro h
      have h2 := dispatchAux_mna_inv path method table false h
      refine ⟨?_, h2.2⟩
      rcases h2.1 with h1 | h1
      · exact h1
      · cases h1
    · rintro ⟨hex, hall⟩
      exact dispatchAux_mna path method table false hall (Or.inl hex)
  · intro h
    exact dispatchAux_full path method table false h

/-- C4 witness: a POST to `/users/tom/83` against the middle version's
table is 405, while the same path with GET matches. -/
theorem dispatch_method_not_allowed_witness :
    dispatch (tableFor demoChanges ⟨2022, 2, 11⟩) ["users", "tom", "83"]
      "POST" = .methodNotAllowed ∧
    (∃ e2, dispatch (tableFor demoChanges ⟨2022, 2, 11⟩)
      ["users", "tom", "83"] "GET" = .matched e2 ∧
      pathMatches e2.pattern ["users", "tom", "83"] = true ∧
      e2.method = "GET") := by
  constructor
  · exact (dispatch_method_not_allowed (tableFor demoChanges ⟨2022, 2, 11⟩)
      (["users", "tom", "83"]) "POST").1.mpr
      ⟨⟨eUsersV2, by decide, by decide⟩, by decide⟩
  · exact (dispatch_method_not_allowed (tableFor demoChanges ⟨2022, 2, 11⟩)
      (["users", "tom", "83"]) "GET").2
      ⟨eUsersV2, by decide, by decide, rfl⟩

/-- C2: the forward-carry invariant — a route in the table of `v1 ≤ v2`
that no change strictly between `v1` and `v2` removes is also in `v2`'s
table; concretely, a route registered at the oldest bundle version and
never removed is served (an `ok` outcome) for every requested date at or
after that version and is 404 for any requested date before it. -/
theorem forward_carry (c0 : VersionChange) (cs : List VersionChange)
    (e : RouteEntry) (token fieldName : String) (path : List String)
    (method : String) (d : Date)
    (hs : List.Pairwise (fun a b => Date.leb a.date b.date = true)
      (c0 :: cs))
    (hadd : e ∈ c0.added)
    (hnr : ∀ c ∈ c0 :: cs, e ∉ c.removed)
    (hp : parseISODate token = some d)
    (hpath : pathMatches e.pattern path = true)
    (hm : e.method = method) :
    (∀ v1 v2, Date.leb v1 v2 = true →
      ∀ e2 ∈ tableFor (c0 :: cs) v1,
        (∀ c ∈ c0 :: cs, Date.ltb v1 c.date = true →
          Date.leb c.date v2 = true → e2 ∉ c.removed) →
        e2 ∈ tableFor (c0 :: cs) v2)
    ∧ (Date.leb c0.date d = true →
        ∃ v e2, rootHandle token fieldName
          ((c0 :: cs).map (fun c => c.date)) (tableFor (c0 :: cs))
          path method = .ok v e2)
    ∧ (Date.leb c0.date d = false →
        rootHandle token fieldName ((c0 :: cs).map (fun c => c.date))
          (tableFor (c0 :: cs)) path method = .notFound) := by
  refine ⟨?_, ?_, ?_⟩
  · intro v1 v2 h12 e2 he2 hnr2
    exact tableFor_carry hs h12 he2 hnr2
  · intro hged
    have hmem : c0.date ∈ (c0 :: cs).map (fun c => c.date) :=
      List.mem_map_of_mem _ (List.mem_cons_self c0 cs)
    cases hg : greatestLE ((c0 :: cs).map (fun c => c.date)) d with
    | none =>
      exfalso
      rcases foldl_betterLE_dominates d ((c0 :: cs).map (fun c => c.date))
        none c0.date hmem hged with ⟨v, hv, _⟩
      have h2 : greatestLE ((c0 :: cs).map (fun c => c.date)) d = some v :=
        hv
      rw [hg] at h2
      cases h2
    | some v =>
      have hlowv : Date.leb c0.date v = true := greatestLE_max hg hmem hged
      have hmemtab : e ∈ tableFor (c0 :: cs) v :=
        mem_tableFor_of_added hadd hnr hlowv
      rcases dispatchAux_full path method (tableFor (c0 :: cs) v) false
        ⟨e, hmemtab, hpath, hm⟩ with ⟨e2, he2, _, _⟩
      refine ⟨v, e2, ?_⟩
      simp only [rootHandle, resolve, hp]
      rw [hg]
      simp only [dispatch]
      rw [he2]
  · intro hltd
    have hall : ∀ w ∈ (c0 :: cs).map (fun c => c.date),
        Date.leb w d = false := by
      intro w hw
      rcases List.mem_map.mp hw with ⟨c, hc, rfl⟩
      rcases List.mem_cons.mp hc with rfl | hc2
      · exact hltd
      · rcases Bool.eq_false_or_eq_true (Date.leb c.date d) with h | h
        · have h2 :=
            Date.leb_trans ((List.pairwise_cons.mp hs).1 c hc2) h
          rw [hltd] at h2
          exact absurd h2 (by decide)
        · exact h
    have hg := greatestLE_none hall
    simp only [rootHandle, resolve, hp]
    rw [hg]

/-- C2 witness: `/doggies/{dogname}`, registered only at `2022-01-10`
and never removed, is served at the requested date `2022-04-19` and is
404 at the requested date `1993-11-15`, before the oldest version. -/
theorem forward_carry_witness :
    (∃ v e2, rootHandle "2022-04-19" "X-API-VERSION"
      (demoChanges.map (fun c => c.date)) (tableFor demoChanges)
      ["doggies", "tom"] "GET" = .ok v e2) ∧
    rootHandle "1993-11-15" "X-API-VERSION"
      (demoChanges.map (fun c => c.date)) (tableFor demoChanges)
      ["doggies", "tom"] "GET" = .notFound := by
  constructor
  · exact (forward_carry demoC1 [demoC2, demoC3] eDoggies "2022-04-19"
      "X-API-VERSION" (["doggies", "tom"]) "GET" ⟨2022, 4, 19⟩
      (by decide) (by decide) (by decide) (by decide) (by decide)
      rfl).2.1 (by decide)
  · exact (forward_carry demoC1 [demoC2, demoC3] eDoggies "1993-11-15"
      "X-API-VERSION" (["doggies", "tom"]) "GET" ⟨1993, 11, 15⟩
      (by decide) (by decide) (by decide) (by decide) (by decide)
      rfl).2.2 (by decide)

/-- C6 counterexample: looking up `api:users` (pattern
`/users/{username}/{page}`) with only `username` supplied fails with a
message carrying `"username"` — the supplied key — while the
required-but-unsupplied set is `["page"]`, so the message is not built
from the missing parameters as the claim states. -/
theorem urlPathFor_counterexample :
    urlPathFor [eUsersV2] "api:users" [("username", "tom")] =
      .error (noMatchMessage "api:users" ["username"]) ∧
    missingParams eUsersV2 [("username", "tom")] = ["page"] ∧
    noMatchMessage "api:users" ["username"] ≠
      noMatchMessage "api:users" ["page"] := by
  refine ⟨rfl, by decide, by decide⟩

/-- C6 (amended): when no candidate accepts the supplied parameters,
`url_path_for` fails with exactly the message
`No route exists for name "<name>" and params "<params>".` where the
params are the supplied parameter keys, comma-joined, in the order they
were supplied. -/
theorem urlPathFor_error_message (table : List RouteEntry) (name : String)
    (params : List (String × String)) (msg : String) :
    urlPathFor table name params = .error msg ↔
      ((∀ e ∈ table, routeUrlFor e name params = none) ∧
        msg = noMatchMessage name (params.map (fun p => p.1))) := by
  unfold urlPathFor
  cases h : table.findSome? (fun e => routeUrlFor e name params) with
  | none =>
    constructor
    · intro he
      injection he with he2
      exact ⟨(findSomeNoneIff _ table).mp h, he2.symm⟩
    · rintro ⟨_, rfl⟩
      rfl
  | some p =>
    constructor
    · intro he
      cases he
    · rintro ⟨hall, _⟩
      rw [(findSomeNoneIff _ table).mpr hall] at h
      cases h

/-- C6 witness (amended claim): supplying `path` and `username` to the
route name `api` fails with the message listing `path, username` — the
supplied keys in supplied order, as in the repository's test. -/
theorem urlPathFor_error_message_witness :
    urlPathFor [eUsersV2] "api" [("path", "hellow"), ("username", "tom")] =
      .error (noMatchMessage "api" ["path", "username"]) :=
  (urlPathFor_error_message [eUsersV2] "api"
    [("path", "hellow"), ("username", "tom")]
    (noMatchMessage "api" ["path", "username"])).mpr
    ⟨by decide, by decide⟩

/-- C7: a non-HTTP protocol frame presented to the root routing entry
point is a non-match with empty captured state, and the outcome is
independent of the version field, bundle and tables — version state is
never consulted. -/
theorem non_http_nomatch (scope : Scope) (fieldName : String)
    (bundle : List Date) (tables : Date → List RouteEntry)
    (h : scope.stype ≠ "http") :
    appMatches scope fieldName bundle tables = (.nomatch, []) ∧
    (∀ (fieldName2 : String) (bundle2 : List Date)
      (tables2 : Date → List RouteEntry),
      appMatches scope fieldName2 bundle2 tables2 =
        appMatches scope fieldName bundle tables) := by
  have hb : (scope.stype == "http") = false := by
    simpa using h
  constructor
  · simp [appMatches, hb]
  · intro fieldName2 bundle2 tables2
    simp [appMatches, hb]

/-- C7 witness: a websocket frame for `/v1/` is `(NONE, {})` against the
test application. -/
theorem non_http_nomatch_witness :
    appMatches ⟨"websocket", ["v1"], "GET", []⟩ "X-API-VERSION"
      demoBundle (tableFor demoChanges) = (.nomatch, []) :=
  (non_http_nomatch ⟨"websocket", ["v1"], "GET", []⟩ "X-API-VERSION"
    demoBundle (tableFor demoChanges) (by decide)).1

/-- C8: in every application run, the startup-hook invocations are
exactly the registered startup hooks, once each in registration order;
likewise for shutdown hooks; every startup hook fires before every
request and every shutdown hook fires after every request, for any
number of requests. -/
theorem lifespan_hooks (nStart nShut : Nat) (reqs : List Nat) :
    ((runLifespan nStart nShut reqs).filter isStartupHook =
      (List.range nStart).map LifeEvent.startupHook)
    ∧ ((runLifespan nStart nShut reqs).filter isShutdownHook =
      (List.range nShut).map LifeEvent.shutdownHook)
    ∧ (∀ (r : Nat) (pre post : List LifeEvent),
        runLifespan nStart nShut reqs =
          pre ++ LifeEvent.requestEv r :: post →
        (∀ i, i < nStart → LifeEvent.startupHook i ∈ pre) ∧
        (∀ i, i < nShut → LifeEvent.shutdownHook i ∈ post)) := by
  refine ⟨?_, ?_, ?_⟩
  · unfold runLifespan
    rw [List.filter_append, List.filter_append]
    rw [List.filter_eq_self.mpr ?_, List.filter_eq_nil_iff.mpr ?_,
      List.filter_eq_nil_iff.mpr ?_]
    · simp
    · intro a ha
      rcases List.mem_map.mp ha with ⟨i, _, rfl⟩
      simp [isStartupHook]
    · intro a ha
      rcases List.mem_map.mp ha with ⟨i, _, rfl⟩
      simp [isStartupHook]
    · intro a ha
      rcases List.mem_map.mp ha with ⟨i, _, rfl⟩
      simp [isStartupHook]
  · unfold runLifespan
    rw [List.filter_append, List.filter_append]
    rw [List.filter_eq_nil_iff.mpr ?_, List.filter_eq_nil_iff.mpr ?_,
      List.filter_eq_self.mpr ?_]
    · simp
    · intro a ha
      rcases List.mem_map.mp ha with ⟨i, _, rfl⟩
      simp [isShutdownHook]
    · intro a ha
      rcases List.mem_map.mp ha with ⟨i, _, rfl⟩
      simp [isShutdownHook]
    · intro a ha
      rcases List.mem_map.mp ha with ⟨i, _, rfl⟩
      simp [isShutdownHook]
  · intro r pre post heq
    unfold runLifespan at heq
    constructor
    · intro i hi
      have hin : LifeEvent.startupHook i ∈
          (List.range nStart).map LifeEvent.startupHook :=
        List.mem_map_of_mem _ (List.mem_range.mpr hi)
      rw [List.append_assoc] at heq
      refine left_all_in_pre isStartupHook
        ((List.range nStart).map LifeEvent.startupHook)
        ((reqs.map LifeEvent.requestEv) ++
          ((List.range nShut).map LifeEvent.shutdownHook))
        pre post (LifeEvent.requestEv r) ?_ rfl heq _ hin
      intro a ha
      rcases List.mem_map.mp ha with ⟨j, _, rfl⟩
      rfl
    · intro i hi
      have hin : LifeEvent.shutdownHook i ∈
          (List.range nShut).map LifeEvent.shutdownHook :=
        List.mem_map_of_mem _ (List.mem_range.mpr hi)
      refine right_all_in_post isShutdownHook
        (((List.range nStart).map LifeEvent.startupHook) ++
          (reqs.map LifeEvent.requestEv))
        ((List.range nShut).map LifeEvent.shutdownHook)
        pre post (LifeEvent.requestEv r) ?_ rfl heq _ hin
      intro a ha
      rcases List.mem_map.mp ha with ⟨j, _, rfl⟩
      rfl

/-- C8 witness: with two startup hooks, one shutdown hook and one
request, both startup hooks precede the request and the shutdown hook
follows it. -/
theorem lifespan_hooks_witness :
    LifeEvent.startupHook 0 ∈
      [LifeEvent.startupHook 0, LifeEvent.startupHook 1] ∧
    LifeEvent.shutdownHook 0 ∈ [LifeEvent.shutdownHook 0] := by
  have h := (lifespan_hooks 2 1 [7]).2.2 7
    [LifeEvent.startupHook 0, LifeEvent.startupHook 1]
    [LifeEvent.shutdownHook 0] (by decide)
  exact ⟨h.1 0 (by decide), h.2 0 (by decide)⟩

/-- C10: `get_versioned_router` returns a root router whose inclusions
are exactly one per `(version, router)` pair produced by
`generate_all_router_versions`, in order, keyed by the version's string
rendering — and nothing else determines the result. -/
theorem get_versioned_router_inclusions {A V M R : Type}
    (generate_all_router_versions : List A → V → M → List (Date × R))
    (routers : List A) (versions : V) (latest_schemas_module : M) :
    (get_versioned_router generate_all_router_versions routers versions
      latest_schemas_module).inclusions =
      (generate_all_router_versions routers versions
        latest_schemas_module).map
        (fun vr => (Date.render vr.1, vr.2)) := by
  unfold get_versioned_router
  rw [foldl_includeRouter]
  rfl

end Cadwyn
